import Mathlib

/-!
# Verification of the Markdown-backed content store (`blog` module)

Shallow embedding of the content store in its most complete observed form
(the `NODE_ENV`-aware variant of `scripts/blog.ts`): JS strings are modelled
as `List Char`, the filesystem as an association list of (file name, file
content) pairs in directory-enumeration order, and thrown exceptions as
`Option.none`.  JS `String.prototype.slice`, `lastIndexOf` and `split` are
embedded with their JS index semantics (negative indices count from the end,
`lastIndexOf` returns `-1` when the pattern is absent).
-/

/-- JS strings, modelled as lists of characters. -/
abbrev Str := List Char

/-- Shorthand: the character list of a Lean string literal. -/
def strL (s : String) : Str := s.toList

/-- The three-character front-matter delimiter `---`. -/
def delim : Str := strL "---"

/-- The `.md` file extension. -/
def mdExt : Str := strL ".md"

/-- The value of `NODE_ENV` that activates the publish filter. -/
def production : Str := strL "production"

/-- Clamp a JS index to `[0, len]`: negative values count from the end
(`max (len + i) 0`), non-negative values are capped at `len`. -/
def jsIndex (len : Nat) (i : Int) : Nat :=
  if i < 0 then ((len : Int) + i).toNat else Nat.min i.toNat len

/-- JS `s.slice(a, b)`: the characters from index `jsIndex a` (inclusive) to
`jsIndex b` (exclusive); empty when the clamped start is at or past the
clamped end. -/
def jsSlice (s : Str) (a b : Int) : Str :=
  (s.take (jsIndex s.length b)).drop (jsIndex s.length a)

/-- JS `s.slice(a)` (one-argument form): from index `jsIndex a` to the end. -/
def jsSliceFrom (s : Str) (a : Int) : Str :=
  jsSlice s a (s.length : Int)

/-- Search downward from position `i` for the greatest position at which
`pat` occurs in `s` (helper for JS `lastIndexOf`). -/
def lastIndexFrom (pat s : Str) : Nat → Option Nat
  | 0 => if pat.isPrefixOf s then some 0 else none
  | i + 1 =>
    if pat.isPrefixOf (s.drop (i + 1)) then some (i + 1)
    else lastIndexFrom pat s i

/-- JS `s.lastIndexOf(pat)`: the greatest index at which `pat` occurs in `s`,
or `-1` when `pat` does not occur. -/
def jsLastIndexOf (s pat : Str) : Int :=
  match lastIndexFrom pat s s.length with
  | some i => (i : Int)
  | none => -1

/-- JS `s.split(c)` for a single-character separator: the (never empty) list
of the maximal separator-free segments of `s`, in order, untrimmed. -/
def splitOnChar (c : Char) : Str → List Str
  | [] => [[]]
  | x :: xs =>
    if x = c then [] :: splitOnChar c xs
    else
      match splitOnChar c xs with
      | [] => [[x]]
      | y :: ys => (x :: y) :: ys

/-- The raw front-matter mapping, as the `yaml` library returns it for the
flat `key: value` front matter used by the posts (interface `PostYaml`):
every field may be absent. -/
structure PostYaml where
  title : Option Str
  date : Option Str
  description : Option Str
  publish : Option Bool
  tags : Option Str
deriving Repr, DecidableEq

/-- The empty YAML mapping. -/
def PostYaml.empty : PostYaml := ⟨none, none, none, none, none⟩

/-- Split a line at its first colon into key and remainder; `none` when the
line has no colon. -/
def breakColon : Str → Option (Str × Str)
  | [] => none
  | c :: cs =>
    if c = ':' then some ([], cs)
    else (breakColon cs).map (fun p => (c :: p.1, p.2))

/-- Parse a YAML boolean literal. -/
def parseBool (v : Str) : Option Bool :=
  if v = strL "true" then some true
  else if v = strL "false" then some false
  else none

/-- Record one `key: value` line in the mapping; lines without a colon and
unknown keys are ignored. -/
def applyLine (y : PostYaml) (line : Str) : PostYaml :=
  match breakColon line with
  | none => y
  | some kv =>
    let v := kv.2.dropWhile (fun c => c = ' ')
    if kv.1 = strL "title" then { y with title := some v }
    else if kv.1 = strL "date" then { y with date := some v }
    else if kv.1 = strL "description" then { y with description := some v }
    else if kv.1 = strL "publish" then { y with publish := parseBool v }
    else if kv.1 = strL "tags" then { y with tags := some v }
    else y

/-- Modelled from the spec: the external `yaml` package (a dependency, not
part of this repository) restricted to the front matter described in the
spec — a flat mapping of `key: value` lines with at minimum `title`, `date`,
`description`, `publish` (boolean literal) and `tags` (comma-separated
scalar).  Empty or whitespace-only input parses to YAML `null`, modelled as
`none`; scalar values are taken verbatim after the colon and optional
spaces. -/
def yamlParse (s : Str) : Option PostYaml :=
  if s.all (fun c => c == ' ' || c == '\n') then none
  else some ((splitOnChar '\n' s).foldl applyLine PostYaml.empty)

/-- The parsed post metadata (the `metadata` field of interface
`PostMetadata`): the YAML fields with `tags` split on commas. -/
structure Meta where
  title : Option Str
  date : Option Str
  description : Option Str
  publish : Option Bool
  tags : List Str
deriving Repr, DecidableEq

/-- An entry of the listing (interface `PostMetadata`). -/
structure PostMetadata where
  id : Str
  metadata : Meta
deriving Repr, DecidableEq

/-- A full post (interface `Post`): listing entry plus Markdown body. -/
structure Post where
  id : Str
  metadata : Meta
  content : Str
deriving Repr, DecidableEq

/-- The region sliced out of a file for YAML parsing: the slice from index 3
to the last occurrence of the delimiter, as the source computes it. -/
def yamlRegion (content : Str) : Str :=
  jsSlice content 3 (jsLastIndexOf content delim)

/-- Embedding of `getMetadata`: parse the sliced region as YAML and split `tags` on
commas.  JS throws a `TypeError` (modelled `none`) when the parse result is
`null` or has no `tags` string. -/
def getMetadata (content : Str) : Option Meta :=
  match yamlParse (yamlRegion content) with
  | none => none
  | some y =>
    match y.tags with
    | none => none
    | some t => some ⟨y.title, y.date, y.description, y.publish, splitOnChar ',' t⟩

/-- Embedding of `getMarkdown`: the slice from the last delimiter occurrence
plus 3 to the end of the content. -/
def getMarkdown (content : Str) : Str :=
  jsSliceFrom content (jsLastIndexOf content delim + 3)

/-- Embedding of the id derivation applied to a file name: remove one
trailing `.md`, if present. -/
def stripMd (name : Str) : Str :=
  if mdExt.isSuffixOf name then name.take (name.length - 3) else name

/-- JS truthiness of a possibly-absent boolean field. -/
def truthy (o : Option Bool) : Bool := o == some true

/-- The directory: (file name, file content) pairs in enumeration order. -/
abbrev FS := List (Str × Str)

/-- Model of the JS array map with a throwing callback: the first exception
aborts the whole map (`none`). -/
def mapOpt (f : α → Option β) : List α → Option (List β)
  | [] => some []
  | x :: xs =>
    match f x, mapOpt f xs with
    | some y, some ys => some (y :: ys)
    | _, _ => none

/-- Model of the JS array filter with a throwing predicate: the first exception
aborts the whole filter (`none`). -/
def filterOpt (p : α → Option Bool) : List α → Option (List α)
  | [] => some []
  | x :: xs =>
    match p x with
    | none => none
    | some b => (filterOpt p xs).map (fun ys => if b then x :: ys else ys)

/-- The per-file body of `getBlogPosts`: id from the stripped file name,
metadata from the parsed content. -/
def postEntry (f : Str × Str) : Option PostMetadata :=
  (getMetadata f.2).map (fun m => ⟨stripMd f.1, m⟩)

/-- The filter of `getBlogPosts`: in production keep entries with truthy
`publish`; otherwise keep everything. -/
def postKeep (env : Str) (pm : PostMetadata) : Bool :=
  if env = production then truthy pm.metadata.publish else true

/-- Embedding of `getBlogPosts`: map every file to a listing entry, then filter by the
publish flag when `NODE_ENV` is the production string. -/
def getBlogPosts (env : Str) (fs : FS) : Option (List PostMetadata) :=
  (mapOpt postEntry fs).map (fun l => l.filter (postKeep env))

/-- The filter callback of `getBlogPostIds`: outside production keep every
file without reading it; in production read and parse the file and keep it
when `publish` is truthy. -/
def idKeep (env : Str) (f : Str × Str) : Option Bool :=
  if env ≠ production then some true
  else (getMetadata f.2).map (fun m => truthy m.publish)

/-- Embedding of `getBlogPostIds`: filter the file names by the publish flag (production
only), then strip the extension. -/
def getBlogPostIds (env : Str) (fs : FS) : Option (List Str) :=
  (filterOpt (idKeep env) fs).map (fun l => l.map (fun f => stripMd f.1))

/-- Embedding of `getBlogPostById`: find the first file whose stripped name equals the
requested id; absent → `undefined` (inner `none`); present but unpublished
in production → `undefined`; otherwise the full post.  The outer `Option`
models a thrown exception. -/
def getBlogPostById (env : Str) (fs : FS) (pid : Str) : Option (Option Post) :=
  match fs.find? (fun f => stripMd f.1 == pid) with
  | none => some none
  | some f =>
    match getMetadata f.2 with
    | none => none
    | some m =>
      if env = production ∧ ¬ truthy m.publish then some none
      else some (some ⟨pid, m, getMarkdown f.2⟩)

/-- All positions at which `pat` occurs in `s`, in increasing order
(spec-side notion of occurrence). -/
def occList (s pat : Str) : List Nat :=
  (List.range (s.length + 1)).filter (fun i => pat.isPrefixOf (s.drop i))

/-- Spec-side front matter, following the spec text: the region between the
first and the second occurrence of the delimiter. -/
def specFrontRegion (content : Str) : Option Str :=
  match occList content delim with
  | i :: j :: _ => some ((content.take j).drop (i + 3))
  | _ => none

/-- Spec-side body, following the spec text: everything after the second
occurrence of the delimiter. -/
def specBodyRegion (content : Str) : Option Str :=
  match occList content delim with
  | _ :: j :: _ => some (content.drop (j + 3))
  | _ => none

/-- Amended spec-side front matter: the region between the first and the
last occurrence of the delimiter. -/
def specFrontAmended (content : Str) : Option Str :=
  match (occList content delim).head?, (occList content delim).getLast? with
  | some i, some j => some ((content.take j).drop (i + 3))
  | _, _ => none

/-- Amended spec-side body: everything after the last occurrence of the
delimiter. -/
def specBodyAmended (content : Str) : Option Str :=
  ((occList content delim).getLast?).map (fun j => content.drop (j + 3))

/-- Join segments back with the separator (inverse of `splitOnChar`). -/
def joinChar (c : Char) : List Str → Str
  | [] => []
  | [x] => x
  | x :: y :: ys => x ++ c :: joinChar c (y :: ys)

/-- Demo file content: a published post. -/
def demoPub : Str := strL "---\ntitle: A\npublish: true\ntags: x,y\n---\nbody-a"

/-- Demo file content: an unpublished post. -/
def demoUnpub : Str := strL "---\ntitle: B\npublish: false\ntags: z\n---\nbody-b"

/-- Demo directory with one published and one unpublished post. -/
def demoFs : FS := [(strL "a.md", demoPub), (strL "b.md", demoUnpub)]

/-- A non-production environment value. -/
def demoDev : Str := strL "development"

/-- The parsed metadata of `demoPub`. -/
def demoPubMeta : Meta := ⟨some (strL "A"), none, none, some true, [strL "x", strL "y"]⟩

/-- The parsed metadata of `demoUnpub`. -/
def demoUnpubMeta : Meta := ⟨some (strL "B"), none, none, some false, [strL "z"]⟩

/-- The listing that `getBlogPosts production demoFs` returns. -/
def demoProdList : List PostMetadata := [⟨strL "a", demoPubMeta⟩]

/-- The unpublished entry of `demoFs`, absent from the production listing. -/
def demoUnpubPm : PostMetadata := ⟨strL "b", demoUnpubMeta⟩

/-- Demo content with an opening delimiter but no closing one. -/
def badC : Str := strL "---\ntitle: X"

/-- Demo content whose body itself contains the delimiter: the delimiter
occurs at positions 0, 4 and 8. -/
def c3cex : Str := strL "---a---b---"

/-- Demo content whose only delimiter occurrence is the opening one. -/
def c4cex : Str := strL "---"

/-- Demo directory in which the stripped name of `a.md.md` collides with
the full file name of `a.md`. -/
def c10fs : FS := [(strL "a.md", demoPub), (strL "a.md.md", demoPub)]

/-! ## Helper lemmas -/

lemma isPrefixOf_iff_exists (p s : Str) : p.isPrefixOf s = true ↔ ∃ t, s = p ++ t := by
  induction p generalizing s with
  | nil => simp [List.isPrefixOf]
  | cons a as ih =>
    cases s with
    | nil => simp [List.isPrefixOf]
    | cons b bs =>
      simp only [List.isPrefixOf, Bool.and_eq_true, beq_iff_eq, ih, List.cons_append,
        List.cons.injEq]
      constructor
      · rintro ⟨rfl, t, rfl⟩
        exact ⟨t, rfl, rfl⟩
      · rintro ⟨t, rfl, rfl⟩
        exact ⟨rfl, t, rfl⟩

lemma isPrefixOf_length_le (p s : Str) (h : p.isPrefixOf s = true) :
    p.length ≤ s.length := by
  obtain ⟨t, rfl⟩ := (isPrefixOf_iff_exists p s).mp h
  simp

lemma mapOpt_length (f : α → Option β) :
    ∀ (xs : List α) (ys : List β), mapOpt f xs = some ys → ys.length = xs.length := by
  intro xs
  induction xs with
  | nil =>
    intro ys h
    simp [mapOpt] at h
    simp [← h]
  | cons x xs ih =>
    intro ys h
    cases hf : f x with
    | none => simp [mapOpt, hf] at h
    | some y =>
      cases hm : mapOpt f xs with
      | none => simp [mapOpt, hf, hm] at h
      | some zs =>
        simp [mapOpt, hf, hm] at h
        simp [← h, ih zs hm]

lemma mapOpt_mem (f : α → Option β) :
    ∀ (xs : List α) (ys : List β), mapOpt f xs = some ys →
      ∀ y ∈ ys, ∃ x ∈ xs, f x = some y := by
  intro xs
  induction xs with
  | nil =>
    intro ys h y hy
    simp [mapOpt] at h
    subst h
    cases hy
  | cons x xs ih =>
    intro ys h y hy
    cases hf : f x with
    | none => simp [mapOpt, hf] at h
    | some z =>
      cases hm : mapOpt f xs with
      | none => simp [mapOpt, hf, hm] at h
      | some zs =>
        simp [mapOpt, hf, hm] at h
        subst h
        rcases List.mem_cons.mp hy with rfl | hmem
        · exact ⟨x, List.mem_cons_self x xs, hf⟩
        · obtain ⟨x1, hx1, hfx1⟩ := ih zs hm y hmem
          exact ⟨x1, List.mem_cons_of_mem x hx1, hfx1⟩

lemma mapOpt_eq_none (f : α → Option β) (x : α) :
    ∀ (xs : List α), x ∈ xs → f x = none → mapOpt f xs = none := by
  intro xs
  induction xs with
  | nil =>
    intro hx
    cases hx
  | cons a as ih =>
    intro hx hfx
    rcases List.mem_cons.mp hx with rfl | hmem
    · cases hm : mapOpt f as <;> simp [mapOpt, hfx, hm]
    · cases hf : f a <;> simp [mapOpt, hf, ih hmem hfx]

lemma filterOpt_mem (p : α → Option Bool) :
    ∀ (xs ys : List α), filterOpt p xs = some ys →
      ∀ y ∈ ys, y ∈ xs ∧ p y = some true := by
  intro xs
  induction xs with
  | nil =>
    intro ys h y hy
    simp [filterOpt] at h
    subst h
    cases hy
  | cons a as ih =>
    intro ys h y hy
    cases hp : p a with
    | none => simp [filterOpt, hp] at h
    | some b =>
      cases hm : filterOpt p as with
      | none => simp [filterOpt, hp, hm] at h
      | some zs =>
        cases b with
        | true =>
          simp [filterOpt, hp, hm] at h
          subst h
          rcases List.mem_cons.mp hy with rfl | hmem
          · exact ⟨List.mem_cons_self _ _, hp⟩
          · obtain ⟨hin, hpt⟩ := ih zs hm y hmem
            exact ⟨List.mem_cons_of_mem _ hin, hpt⟩
        | false =>
          simp [filterOpt, hp, hm] at h
          subst h
          obtain ⟨hin, hpt⟩ := ih zs hm y hy
          exact ⟨List.mem_cons_of_mem a hin, hpt⟩

lemma filterOpt_eq_self (p : α → Option Bool) :
    ∀ (xs : List α), (∀ x ∈ xs, p x = some true) → filterOpt p xs = some xs := by
  intro xs
  induction xs with
  | nil =>
    intro _
    rfl
  | cons a as ih =>
    intro h
    have ha := h a (List.mem_cons_self a as)
    have has : ∀ x ∈ as, p x = some true := fun x hx => h x (List.mem_cons_of_mem a hx)
    simp [filterOpt, ha, ih has]

lemma lastIndexFrom_isPrefixOf (pat s : Str) :
    ∀ (n i : Nat), lastIndexFrom pat s n = some i → pat.isPrefixOf (s.drop i) = true := by
  intro n
  induction n with
  | zero =>
    intro i h
    by_cases hc : pat.isPrefixOf s = true
    · rw [lastIndexFrom, if_pos hc] at h
      cases h
      simpa using hc
    · rw [lastIndexFrom, if_neg hc] at h
      cases h
  | succ k ih =>
    intro i h
    by_cases hc : pat.isPrefixOf (s.drop (k + 1)) = true
    · rw [lastIndexFrom, if_pos hc] at h
      cases h
      exact hc
    · rw [lastIndexFrom, if_neg hc] at h
      exact ih i h

lemma lastIndexFrom_eq_getLast (pat s : Str) :
    ∀ n : Nat, lastIndexFrom pat s n =
      ((List.range (n + 1)).filter (fun i => pat.isPrefixOf (s.drop i))).getLast? := by
  intro n
  induction n with
  | zero =>
    have h1 : List.range 1 = [0] := rfl
    rw [lastIndexFrom, h1]
    cases hc : pat.isPrefixOf s <;>
      simp [List.filter_cons, List.drop_zero, hc]
  | succ k ih =>
    rw [lastIndexFrom, List.range_succ, List.filter_append]
    cases hc : pat.isPrefixOf (s.drop (k + 1)) with
    | true =>
      simp only [hc, if_true, List.filter_cons, List.filter_nil]
      rw [List.getLast?_concat]
    | false =>
      simp only [hc, Bool.false_eq_true, if_false, List.filter_cons, List.filter_nil]
      simpa using ih

lemma occList_getLast_eq (content : Str) :
    (occList content delim).getLast? = lastIndexFrom delim content content.length := by
  rw [lastIndexFrom_eq_getLast]
  rfl

lemma occList_head_of_delim (content : Str) (h : delim.isPrefixOf content = true) :
    (occList content delim).head? = some 0 := by
  unfold occList
  rw [List.range_succ_eq_map, List.filter_cons]
  simp [h]

lemma lastIndexFrom_exists_of_delim (content : Str) (h : delim.isPrefixOf content = true) :
    ∃ L, lastIndexFrom delim content content.length = some L := by
  rw [← occList_getLast_eq]
  have h0 : 0 ∈ occList content delim := by
    unfold occList
    refine List.mem_filter.mpr ⟨List.mem_range.mpr (Nat.succ_pos _), ?_⟩
    simpa using h
  have hne : occList content delim ≠ [] := by
    intro hnil
    rw [hnil] at h0
    cases h0
  cases hl : (occList content delim).getLast? with
  | none => exact absurd (List.getLast?_eq_none_iff.mp hl) hne
  | some L => exact ⟨L, rfl⟩

lemma lastIndexFrom_add_le (pat s : Str) (n L : Nat)
    (h : lastIndexFrom pat s n = some L) (hne : pat ≠ []) :
    L + pat.length ≤ s.length := by
  have hp := lastIndexFrom_isPrefixOf pat s n L h
  have hl := isPrefixOf_length_le _ _ hp
  rw [List.length_drop] at hl
  have hpos : 0 < pat.length := List.length_pos.mpr hne
  omega

lemma jsIndex_coe (len a : Nat) : jsIndex len (a : Int) = Nat.min a len := by
  unfold jsIndex
  rw [if_neg (by omega), Int.toNat_natCast]

lemma jsSlice_coe (s : Str) (a b : Nat) (ha : a ≤ s.length) (hb : b ≤ s.length) :
    jsSlice s (a : Int) (b : Int) = (s.take b).drop a := by
  unfold jsSlice
  have h1 : Nat.min a s.length = a := min_eq_left ha
  have h2 : Nat.min b s.length = b := min_eq_left hb
  rw [jsIndex_coe, jsIndex_coe, h1, h2]

lemma splitOnChar_ne_nil (c : Char) (s : Str) : splitOnChar c s ≠ [] := by
  cases s with
  | nil => simp [splitOnChar]
  | cons x xs =>
    rw [splitOnChar]
    by_cases h : x = c
    · simp [h]
    · rw [if_neg h]
      cases hs : splitOnChar c xs <;> simp

lemma splitOnChar_length (c : Char) (s : Str) :
    (splitOnChar c s).length = s.count c + 1 := by
  induction s with
  | nil => simp [splitOnChar]
  | cons x xs ih =>
    rw [splitOnChar]
    by_cases h : x = c
    · subst h
      simp [List.count_cons, ih]
    · rw [if_neg h]
      cases hs : splitOnChar c xs with
      | nil => exact absurd hs (splitOnChar_ne_nil c xs)
      | cons y ys =>
        rw [hs] at ih
        simp [List.count_cons, h, Ne.symm h] at ih ⊢
        omega

lemma joinChar_splitOnChar (c : Char) (s : Str) :
    joinChar c (splitOnChar c s) = s := by
  induction s with
  | nil => simp [splitOnChar, joinChar]
  | cons x xs ih =>
    rw [splitOnChar]
    by_cases h : x = c
    · rw [if_pos h]
      subst h
      cases hs : splitOnChar _ xs with
      | nil => exact absurd hs (splitOnChar_ne_nil _ xs)
      | cons y ys =>
        rw [hs] at ih
        rw [joinChar]
        simp [ih]
    · rw [if_neg h]
      cases hs : splitOnChar c xs with
      | nil => exact absurd hs (splitOnChar_ne_nil c xs)
      | cons y ys =>
        rw [hs] at ih
        cases ys with
        | nil =>
          rw [joinChar] at ih ⊢
          simp [ih]
        | cons z zs =>
          rw [joinChar] at ih ⊢
          simp [List.cons_append, ih]

lemma delim_length : delim.length = 3 := rfl

lemma delim_ne_nil : delim ≠ [] := by decide

lemma yamlRegion_eq (content : Str) (L : Nat)
    (hL : lastIndexFrom delim content content.length = some L) :
    yamlRegion content = (content.take L).drop 3 := by
  have hle : L + 3 ≤ content.length := by
    have h := lastIndexFrom_add_le delim content content.length L hL delim_ne_nil
    rwa [delim_length] at h
  unfold yamlRegion jsLastIndexOf
  rw [hL]
  show jsSlice content ((3 : Nat) : Int) ((L : Nat) : Int) = _
  rw [jsSlice_coe content 3 L (by omega) (by omega)]

lemma getMarkdown_eq (content : Str) (L : Nat)
    (hL : lastIndexFrom delim content content.length = some L) :
    getMarkdown content = content.drop (L + 3) := by
  have hle : L + 3 ≤ content.length := by
    have h := lastIndexFrom_add_le delim content content.length L hL delim_ne_nil
    rwa [delim_length] at h
  unfold getMarkdown jsSliceFrom jsLastIndexOf
  rw [hL]
  have hcast : (L : Int) + 3 = ((L + 3 : Nat) : Int) := by push_cast; ring
  rw [hcast]
  rw [jsSlice_coe content (L + 3) content.length hle (le_refl _)]
  rw [List.take_length]

lemma lastIndexFrom_eq_zero (pat s : Str)
    (h0 : pat.isPrefixOf s = true)
    (h : ∀ i, 0 < i → pat.isPrefixOf (s.drop i) = false) :
    ∀ n, lastIndexFrom pat s n = some 0 := by
  intro n
  induction n with
  | zero => rw [lastIndexFrom, if_pos h0]
  | succ k ih =>
    rw [lastIndexFrom, if_neg (by simp [h (k + 1) (Nat.succ_pos k)])]
    exact ih

lemma getBlogPostById_no_match (env : Str) (fs : FS) (pid : Str)
    (h : ∀ f ∈ fs, ¬ stripMd f.1 = pid) :
    getBlogPostById env fs pid = some none := by
  have hfind : fs.find? (fun f => stripMd f.1 == pid) = none := by
    rw [List.find?_eq_none]
    intro f hf
    simp [h f hf]
  unfold getBlogPostById
  rw [hfind]

lemma ids_from_posts (env : Str) :
    ∀ (fs : FS) (l0 : List PostMetadata), mapOpt postEntry fs = some l0 →
      ∃ fl, filterOpt (idKeep env) fs = some fl ∧
        fl.map (fun f => stripMd f.1) = (l0.filter (postKeep env)).map (fun pm => pm.id) := by
  intro fs
  induction fs with
  | nil =>
    intro l0 h
    simp [mapOpt] at h
    subst h
    exact ⟨[], rfl, rfl⟩
  | cons f fs ih =>
    intro l0 h
    cases hm : getMetadata f.2 with
    | none => simp [mapOpt, postEntry, hm] at h
    | some m =>
      cases hmap : mapOpt postEntry fs with
      | none => simp [mapOpt, postEntry, hm, hmap] at h
      | some l1 =>
        have hpe : postEntry f = some ⟨stripMd f.1, m⟩ := by simp [postEntry, hm]
        simp [mapOpt, hpe, hmap] at h
        subst h
        obtain ⟨fl, hfl, hmapeq⟩ := ih l1 hmap
        by_cases henv : env = production
        · have hik : idKeep env f = some (truthy m.publish) := by
            simp [idKeep, henv, hm]
          refine ⟨if truthy m.publish then f :: fl else fl, ?_, ?_⟩
          · simp [filterOpt, hik, hfl]
          · cases hp : truthy m.publish with
            | true => simp [hp, postKeep, henv, hmapeq, List.filter_cons]
            | false => simp [hp, postKeep, henv, hmapeq, List.filter_cons]
        · have hik : idKeep env f = some true := by simp [idKeep, henv]
          refine ⟨f :: fl, ?_, ?_⟩
          · simp [filterOpt, hik, hfl]
          · simp [postKeep, henv, hmapeq, List.filter_cons]

/-! ## Claim theorems -/

/-- Claim C8: for an id that no file's extension-stripped name matches,
fetch-by-id (`getBlogPostById`) returns the absence value `undefined`
(modelled as the inner `none`) rather than raising an error. -/
theorem fetch_missing_absent_C8 (env : Str) (fs : FS) (pid : Str)
    (h : ∀ f ∈ fs, ¬ stripMd f.1 = pid) :
    getBlogPostById env fs pid = some none :=
  getBlogPostById_no_match env fs pid h

/-- Witness for C8: the id `nope` matches no file of the demo directory and
lookup returns `undefined`. -/
theorem fetch_missing_absent_C8_witness :
    getBlogPostById production demoFs (strL "nope") = some none :=
  fetch_missing_absent_C8 production demoFs (strL "nope") (by decide)

/-- Claim C9: on content that starts with the delimiter but has no further
occurrence of `---`, the sliced front-matter region is empty, the YAML parse
yields `null`, `getMetadata` throws, and one such file aborts the entire
`getBlogPosts` listing instead of being skipped. -/
theorem malformed_aborts_C9 (content : Str)
    (h0 : delim.isPrefixOf content = true)
    (hno : ∀ i, i < content.length → 0 < i →
      delim.isPrefixOf (content.drop i) = false) :
    yamlRegion content = [] ∧
    yamlParse (yamlRegion content) = none ∧
    getMetadata content = none ∧
    ∀ (env : Str) (fs1 fs2 : FS) (name : Str),
      getBlogPosts env (fs1 ++ (name, content) :: fs2) = none := by
  have hall : ∀ i, 0 < i → delim.isPrefixOf (content.drop i) = false := by
    intro i hi
    by_cases hlen : i < content.length
    · exact hno i hlen hi
    · have hdrop : content.drop i = [] := List.drop_eq_nil_of_le (by omega)
      rw [hdrop]
      decide
  have hL := lastIndexFrom_eq_zero delim content h0 hall content.length
  have hreg : yamlRegion content = [] := by
    rw [yamlRegion_eq content 0 hL]
    simp
  have hparse : yamlParse [] = none := by decide
  have hmeta : getMetadata content = none := by
    rw [getMetadata, hreg, hparse]
  refine ⟨hreg, by rw [hreg, hparse], hmeta, ?_⟩
  intro env fs1 fs2 name
  have hnone : mapOpt postEntry (fs1 ++ (name, content) :: fs2) = none := by
    apply mapOpt_eq_none postEntry (name, content)
    · exact List.mem_append_right fs1 (List.mem_cons_self _ _)
    · simp [postEntry, hmeta]
  rw [getBlogPosts, hnone]
  rfl

/-- Witness for C9: `badC` has no closing delimiter; its metadata parse
throws and its presence aborts the whole listing. -/
theorem malformed_aborts_C9_witness :
    getMetadata badC = none ∧
    getBlogPosts production ([] ++ (strL "bad.md", badC) :: demoFs) = none :=
  ⟨(malformed_aborts_C9 badC (by decide) (by decide)).2.2.1,
   (malformed_aborts_C9 badC (by decide) (by decide)).2.2.2 production [] demoFs
     (strL "bad.md")⟩

/-- Counterexample to C10 as stated: the demo directory `c10fs` contains the
file `a.md` (so `n` is `a`), yet fetch-by-id with the full filename `a.md`
does not return `undefined`, because the other file `a.md.md` strips to
`a.md` and is found. -/
theorem fullname_lookup_C10_cex :
    (strL "a" ++ mdExt, demoPub) ∈ c10fs ∧
    ¬ getBlogPostById demoDev c10fs (strL "a" ++ mdExt) = some none := by
  decide

/-- Claim C10 (amended): for a file named `n ++ ".md"` in the directory,
provided no file's extension-stripped name equals `n ++ ".md"`, fetch-by-id
with the full filename returns `undefined`, because the lookup compares the
requested id only against extension-stripped filenames. -/
theorem fullname_lookup_C10 (env : Str) (fs : FS) (n c : Str)
    (_hmem : (n ++ mdExt, c) ∈ fs)
    (hno : ∀ f ∈ fs, ¬ stripMd f.1 = n ++ mdExt) :
    getBlogPostById env fs (n ++ mdExt) = some none :=
  getBlogPostById_no_match env fs (n ++ mdExt) hno

/-- Witness for C10: looking up `a.md` in the demo directory returns
`undefined`; only the stripped id `a` would retrieve the post. -/
theorem fullname_lookup_C10_witness :
    getBlogPostById production demoFs (strL "a" ++ mdExt) = some none :=
  fullname_lookup_C10 production demoFs (strL "a") demoPub (by decide) (by decide)

/-- Claim C2: when the file the lookup selects for an id parses to metadata
with `publish = false`, fetch-by-id returns `undefined` in production mode
and the full post (requested id, parsed metadata, Markdown body) in any
other mode. -/
theorem fetch_unpublished_C2 (env : Str) (fs : FS) (pid : Str) (f : Str × Str) (m : Meta)
    (hf : fs.find? (fun g => stripMd g.1 == pid) = some f)
    (hm : getMetadata f.2 = some m)
    (hp : m.publish = some false) :
    getBlogPostById production fs pid = some none ∧
    (¬ env = production →
      getBlogPostById env fs pid = some (some ⟨pid, m, getMarkdown f.2⟩)) := by
  have ht : ¬ truthy m.publish = true := by
    rw [hp]
    decide
  constructor
  · simp only [getBlogPostById, hf, hm]
    rw [if_pos ⟨trivial, ht⟩]
  · intro henv
    simp only [getBlogPostById, hf, hm]
    rw [if_neg (fun hc => henv hc.1)]

/-- Witness for C2: the unpublished post `b` of the demo directory is
`undefined` in production and fully returned in development. -/
theorem fetch_unpublished_C2_witness :
    getBlogPostById production demoFs (strL "b") = some none ∧
    getBlogPostById demoDev demoFs (strL "b") =
      some (some ⟨strL "b", demoUnpubMeta, getMarkdown demoUnpub⟩) :=
  ⟨(fetch_unpublished_C2 demoDev demoFs (strL "b") (strL "b.md", demoUnpub)
      demoUnpubMeta (by decide) (by decide) (by decide)).1,
   (fetch_unpublished_C2 demoDev demoFs (strL "b") (strL "b.md", demoUnpub)
      demoUnpubMeta (by decide) (by decide) (by decide)).2 (by decide)⟩

/-- Claim C1: in production mode, `getBlogPosts` returns no entry whose
parsed `publish` field is `false` and every id of `getBlogPostIds` comes
from a file whose parsed `publish` is `true`; outside production, the
listing keeps one entry per file and the id listing is exactly the stripped
file names. -/
theorem publish_filter_C1 (env : Str) (fs : FS) :
    (env = production →
      (∀ l, getBlogPosts env fs = some l →
        ∀ pm ∈ l, ¬ pm.metadata.publish = some false) ∧
      (∀ ids, getBlogPostIds env fs = some ids →
        ∀ i ∈ ids, ∃ f ∈ fs, stripMd f.1 = i ∧
          ∃ m, getMetadata f.2 = some m ∧ m.publish = some true)) ∧
    (¬ env = production →
      (∀ l, getBlogPosts env fs = some l → l.length = fs.length) ∧
      getBlogPostIds env fs = some (fs.map (fun f => stripMd f.1))) := by
  constructor
  · intro henv
    constructor
    · intro l hl pm hpm
      rw [getBlogPosts] at hl
      cases hmap : mapOpt postEntry fs with
      | none =>
        rw [hmap] at hl
        cases hl
      | some l0 =>
        rw [hmap] at hl
        simp only [Option.map_some', Option.some.injEq] at hl
        rw [← hl] at hpm
        have hkeep := List.of_mem_filter hpm
        rw [postKeep, if_pos henv] at hkeep
        unfold truthy at hkeep
        rw [beq_iff_eq] at hkeep
        rw [hkeep]
        intro hfalse
        cases hfalse
    · intro ids hids i hi
      rw [getBlogPostIds] at hids
      cases hfo : filterOpt (idKeep env) fs with
      | none =>
        rw [hfo] at hids
        cases hids
      | some fl =>
        rw [hfo] at hids
        simp only [Option.map_some', Option.some.injEq] at hids
        rw [← hids] at hi
        obtain ⟨f, hf, hstrip⟩ := List.mem_map.mp hi
        obtain ⟨hmem, hkeep⟩ := filterOpt_mem (idKeep env) fs fl hfo f hf
        rw [idKeep, if_neg (not_not_intro henv)] at hkeep
        cases hm : getMetadata f.2 with
        | none =>
          rw [hm] at hkeep
          cases hkeep
        | some m =>
          rw [hm] at hkeep
          simp only [Option.map_some', Option.some.injEq] at hkeep
          refine ⟨f, hmem, hstrip, m, hm, ?_⟩
          unfold truthy at hkeep
          rwa [beq_iff_eq] at hkeep
  · intro henv
    constructor
    · intro l hl
      rw [getBlogPosts] at hl
      cases hmap : mapOpt postEntry fs with
      | none =>
        rw [hmap] at hl
        cases hl
      | some l0 =>
        rw [hmap] at hl
        simp only [Option.map_some', Option.some.injEq] at hl
        have hfil : l0.filter (postKeep env) = l0 := by
          apply List.filter_eq_self.mpr
          intro pm hpm
          rw [postKeep, if_neg henv]
        rw [hfil] at hl
        rw [← hl]
        exact mapOpt_length postEntry fs l0 hmap
    · rw [getBlogPostIds]
      have hfo : filterOpt (idKeep env) fs = some fs := by
        apply filterOpt_eq_self
        intro f hf
        rw [idKeep, if_pos henv]
      rw [hfo]
      rfl

/-- Witness for C1: the unpublished entry is absent from the production
listing, and the development id listing has one id per file. -/
theorem publish_filter_C1_witness :
    demoUnpubPm ∉ demoProdList ∧
    getBlogPostIds demoDev demoFs = some [strL "a", strL "b"] := by
  constructor
  · intro hmem
    exact ((publish_filter_C1 production demoFs).1 rfl).1 demoProdList (by decide)
      demoUnpubPm hmem (by decide)
  · exact (((publish_filter_C1 demoDev demoFs).2 (by decide)).2).trans (by decide)

/-- Claim C7: whenever `getBlogPosts` returns a listing, `getBlogPostIds`
returns exactly that listing projected to the `id` field — the same entries
survive the publish filter, in the same order, although one implementation
filters file names before mapping and the other maps before filtering. -/
theorem ids_project_posts_C7 (env : Str) (fs : FS) (l : List PostMetadata)
    (h : getBlogPosts env fs = some l) :
    getBlogPostIds env fs = some (l.map (fun pm => pm.id)) := by
  rw [getBlogPosts] at h
  cases hmap : mapOpt postEntry fs with
  | none =>
    rw [hmap] at h
    cases h
  | some l0 =>
    rw [hmap] at h
    simp only [Option.map_some', Option.some.injEq] at h
    obtain ⟨fl, hfl, hmapeq⟩ := ids_from_posts env fs l0 hmap
    rw [getBlogPostIds, hfl]
    simp only [Option.map_some', Option.some.injEq]
    rw [hmapeq, h]

/-- Witness for C7 on the demo directory in production mode. -/
theorem ids_project_posts_C7_witness :
    getBlogPostIds production demoFs = some (demoProdList.map (fun pm => pm.id)) :=
  ids_project_posts_C7 production demoFs demoProdList (by decide)

/-- Claim C6: when every file name carries the `.md` extension, every id the
store produces — in `getBlogPosts`, `getBlogPostIds` and the matching rule
of `getBlogPostById` — is a file name with the extension removed. -/
theorem id_strips_extension_C6 (env : Str) (fs : FS)
    (hmd : ∀ f ∈ fs, mdExt.isSuffixOf f.1 = true) :
    (∀ l, getBlogPosts env fs = some l →
      ∀ pm ∈ l, ∃ f ∈ fs, pm.id = f.1.take (f.1.length - 3)) ∧
    (∀ ids, getBlogPostIds env fs = some ids →
      ∀ i ∈ ids, ∃ f ∈ fs, i = f.1.take (f.1.length - 3)) ∧
    (∀ pid p, getBlogPostById env fs pid = some (some p) →
      (∃ f ∈ fs, pid = f.1.take (f.1.length - 3)) ∧ p.id = pid) := by
  have hstrip : ∀ f ∈ fs, stripMd f.1 = f.1.take (f.1.length - 3) := by
    intro f hf
    rw [stripMd, if_pos (hmd f hf)]
  refine ⟨?_, ?_, ?_⟩
  · intro l hl pm hpm
    rw [getBlogPosts] at hl
    cases hmap : mapOpt postEntry fs with
    | none =>
      rw [hmap] at hl
      cases hl
    | some l0 =>
      rw [hmap] at hl
      simp only [Option.map_some', Option.some.injEq] at hl
      rw [← hl] at hpm
      have hpm0 := List.mem_of_mem_filter hpm
      obtain ⟨f, hf, hpe⟩ := mapOpt_mem postEntry fs l0 hmap pm hpm0
      refine ⟨f, hf, ?_⟩
      rw [postEntry] at hpe
      cases hm : getMetadata f.2 with
      | none =>
        rw [hm] at hpe
        cases hpe
      | some m =>
        rw [hm] at hpe
        simp only [Option.map_some', Option.some.injEq] at hpe
        rw [← hpe, hstrip f hf]
  · intro ids hids i hi
    rw [getBlogPostIds] at hids
    cases hfo : filterOpt (idKeep env) fs with
    | none =>
      rw [hfo] at hids
      cases hids
    | some fl =>
      rw [hfo] at hids
      simp only [Option.map_some', Option.some.injEq] at hids
      rw [← hids] at hi
      obtain ⟨f, hf, hstripf⟩ := List.mem_map.mp hi
      have hmem := (filterOpt_mem (idKeep env) fs fl hfo f hf).1
      exact ⟨f, hmem, by rw [← hstripf, hstrip f hmem]⟩
  · intro pid p hp
    cases hfind : fs.find? (fun f => stripMd f.1 == pid) with
    | none =>
      rw [getBlogPostById, hfind] at hp
      cases hp
    | some f =>
      have hmem := List.mem_of_find?_eq_some hfind
      have hpred := List.find?_some hfind
      rw [beq_iff_eq] at hpred
      constructor
      · exact ⟨f, hmem, by rw [← hpred, hstrip f hmem]⟩
      · simp only [getBlogPostById, hfind] at hp
        cases hm : getMetadata f.2 with
        | none =>
          simp only [hm] at hp
          cases hp
        | some m =>
          simp only [hm] at hp
          by_cases hc : env = production ∧ ¬ truthy m.publish = true
          · rw [if_pos hc] at hp
            cases hp
          · rw [if_neg hc] at hp
            simp only [Option.some.injEq] at hp
            rw [← hp]

/-- Witness for C6: the id `a` of the demo directory is the file name `a.md`
with the extension removed. -/
theorem id_strips_extension_C6_witness :
    demoFs.any (fun f => strL "a" == f.1.take (f.1.length - 3)) = true := by
  obtain ⟨f, hf, heq⟩ := (id_strips_extension_C6 demoDev demoFs (by decide)).2.1
    [strL "a", strL "b"] (by decide) (strL "a") (by decide)
  exact List.any_eq_true.mpr ⟨f, hf, by simp [← heq]⟩

/-- Claim C5: the `tags` of a parsed post are the comma-split of the raw
front-matter tags scalar: same left-to-right order, length equal to the
number of commas plus one, and joining the pieces back with a comma (no
trimming) restores the raw scalar. -/
theorem tags_comma_split_C5 (content : Str) (y : PostYaml) (raw : Str) (m : Meta)
    (hy : yamlParse (yamlRegion content) = some y)
    (ht : y.tags = some raw)
    (hm : getMetadata content = some m) :
    m.tags = splitOnChar ',' raw ∧
    m.tags.length = raw.count ',' + 1 ∧
    joinChar ',' m.tags = raw := by
  simp only [getMetadata, hy, ht, Option.some.injEq] at hm
  rw [← hm]
  exact ⟨rfl, splitOnChar_length ',' raw, joinChar_splitOnChar ',' raw⟩

/-- Witness for C5 on the demo post with raw tags `x,y`. -/
theorem tags_comma_split_C5_witness :
    demoPubMeta.tags = splitOnChar ',' (strL "x,y") ∧
    demoPubMeta.tags.length = (strL "x,y").count ',' + 1 ∧
    joinChar ',' demoPubMeta.tags = strL "x,y" :=
  tags_comma_split_C5 demoPub
    ⟨some (strL "A"), none, none, some true, some (strL "x,y")⟩
    (strL "x,y") demoPubMeta (by decide) (by decide) (by decide)

/-- Counterexample to C3 as stated: on `c3cex` (delimiter occurrences at 0,
4 and 8) the region `getMetadata` slices runs to the LAST occurrence, not
the second, and the body starts after the last occurrence. -/
theorem frontmatter_region_C3_cex :
    (¬ some (yamlRegion c3cex) = specFrontRegion c3cex) ∧
    (¬ some (getMarkdown c3cex) = specBodyRegion c3cex) := by
  decide

/-- Claim C3 (amended): for content beginning with the delimiter, the
front-matter region parsed by `getMetadata` is exactly the text between the
first and the LAST occurrence of `---`, and the body returned by
`getMarkdown` is exactly the text after that last occurrence, with no
further transformation. -/
theorem frontmatter_region_C3 (content : Str) (h : delim.isPrefixOf content = true) :
    some (yamlRegion content) = specFrontAmended content ∧
    some (getMarkdown content) = specBodyAmended content := by
  obtain ⟨L, hL⟩ := lastIndexFrom_exists_of_delim content h
  have hlast : (occList content delim).getLast? = some L := by
    rw [occList_getLast_eq, hL]
  have hhead := occList_head_of_delim content h
  constructor
  · rw [yamlRegion_eq content L hL]
    simp only [specFrontAmended, hhead, hlast]
  · rw [getMarkdown_eq content L hL]
    simp only [specBodyAmended, hlast, Option.map_some']

/-- Witness for C3 on the demo post. -/
theorem frontmatter_region_C3_witness :
    some (yamlRegion demoPub) = specFrontAmended demoPub ∧
    some (getMarkdown demoPub) = specBodyAmended demoPub :=
  frontmatter_region_C3 demoPub (by decide)

/-- Counterexample to C4 as stated: `c4cex` begins with the delimiter, but
its only delimiter occurrence is the opening one, so the reconstruction
doubles the delimiter. -/
theorem roundtrip_C4_cex :
    delim.isPrefixOf c4cex = true ∧
    ¬ delim ++ yamlRegion c4cex ++ delim ++ getMarkdown c4cex = c4cex := by
  decide

/-- Claim C4 (amended): for content beginning with the delimiter whose last
`---` occurrence lies at index at least 3 (a delimiter occurrence disjoint
from the opening one), concatenating the delimiter, the region consumed by
`getMetadata`, the delimiter and the body of `getMarkdown` reconstructs the
original content. -/
theorem roundtrip_C4 (content : Str) (L : Nat)
    (hpre : delim.isPrefixOf content = true)
    (hL : lastIndexFrom delim content content.length = some L)
    (h3 : 3 ≤ L) :
    delim ++ yamlRegion content ++ delim ++ getMarkdown content = content := by
  have hocc : delim.isPrefixOf (content.drop L) = true :=
    lastIndexFrom_isPrefixOf delim content content.length L hL
  rw [yamlRegion_eq content L hL, getMarkdown_eq content L hL]
  have htake3 : (content.take L).take 3 = delim := by
    rw [List.take_take, min_eq_left h3]
    obtain ⟨t, ht⟩ := (isPrefixOf_iff_exists delim content).mp hpre
    rw [ht]
    have h := List.take_left delim t
    rwa [delim_length] at h
  have hA : delim ++ (content.take L).drop 3 = content.take L := by
    conv_rhs => rw [← List.take_append_drop 3 (content.take L)]
    rw [htake3]
  have hdropTake : (content.drop L).take 3 = delim := by
    obtain ⟨u, hu⟩ := (isPrefixOf_iff_exists delim (content.drop L)).mp hocc
    rw [hu]
    have h := List.take_left delim u
    rwa [delim_length] at h
  have hB : delim ++ content.drop (L + 3) = content.drop L := by
    conv_rhs => rw [← List.take_append_drop 3 (content.drop L)]
    rw [hdropTake]
    congr 1
    rw [List.drop_drop]
  calc delim ++ (content.take L).drop 3 ++ delim ++ content.drop (L + 3)
      = (delim ++ (content.take L).drop 3) ++ (delim ++ content.drop (L + 3)) := by
        simp [List.append_assoc]
    _ = content.take L ++ content.drop L := by rw [hA, hB]
    _ = content := List.take_append_drop L content

/-- Witness for C4 on the demo post, whose last delimiter occurrence is at
index 37. -/
theorem roundtrip_C4_witness :
    delim ++ yamlRegion demoPub ++ delim ++ getMarkdown demoPub = demoPub :=
  roundtrip_C4 demoPub 37 (by decide) (by decide) (by decide)
